import Mathlib

/-!
# Emgo examples and nRF5 RTC accessors: a verification development

Shallow embedding of

* `stm32/examples/f4-discovery/chan+isr/main.go` (button events handed from an
  interrupt handler to the main loop through a buffered channel),
* `nrf5/hal/rtc/rtc.go` (register accessors of the real time counter),
* `stm32/examples/minidev/circadc/main.go` (consumer loop of the circular ADC
  driver and its waveform plot).

Go `int` is the machine word of the 32-bit targets; where an `int` is
incremented the result is wrapped to 32 bits.
-/

namespace Emgo

/-- Two's complement wrap of a Go `int` on the 32-bit targets. -/
def wrapInt (x : Int) : Int := (x + 2147483648) % 4294967296 - 2147483648

/-! ## chan+isr: the event queue -/

namespace ChanISR

/-- LED pin numbers: `Green = 12 + iota`. -/
def Green : Int := 12
/-- Third constant of the `iota` block. -/
def Red : Int := 14
/-- Fourth constant of the `iota` block. -/
def Blue : Int := 15

/-- Hardware operations issued by the program (GPIO, EXTI, busy waits). -/
inductive Out where
  | clearPending                -- exti.L0.ClearPending()
  | setPin (pin : Int)          -- LED.SetPin(pin)
  | clearPin (pin : Int)        -- LED.ClearPin(pin)
  | delayLoop (n : Nat)         -- delay.Loop(n)
  | delayMillisec (ms : Nat)    -- delay.Millisec(ms)
  deriving DecidableEq, Repr

/-- A buffered Go channel of `int`: its capacity and the values it holds,
oldest first.  `sent` and `rcvd` are history variables: every value a send
has put into the channel, and every value a receive has taken out of it. -/
structure Chan where
  cap : Nat
  buf : List Int
  sent : List Int
  rcvd : List Int
  deriving DecidableEq, Repr

/-- The channel built by `make(chan int, n)`. -/
def Chan.make (n : Nat) : Chan := { cap := n, buf := [], sent := [], rcvd := [] }

/-- The send of `select { case c <- v: ... default: ... }`: it succeeds when
the buffer has room and is not taken (`none`) when the buffer is full. -/
def Chan.trySend (ch : Chan) (v : Int) : Option Chan :=
  if ch.buf.length < ch.cap then
    some { ch with buf := ch.buf ++ [v], sent := ch.sent ++ [v] }
  else
    none

/-- The receive `<-c`: the oldest value and the channel without it; `none`
when the channel is empty, where the receiver stays blocked. -/
def Chan.recv (ch : Chan) : Option (Int × Chan) :=
  match ch.buf with
  | [] => none
  | v :: rest => some (v, { ch with buf := rest, rcvd := ch.rcvd ++ [v] })

/-- Package variables `c` and `led`, and the hardware operations issued so far
by the interrupt handler and by the main loop (oldest first). -/
structure State where
  c : Chan
  led : Int
  isrOut : List Out
  mainOut : List Out
  deriving DecidableEq, Repr

/-- Package initialisation: `c = make(chan int, 3)`, `led = Green`. -/
def State.init : State :=
  { c := Chan.make 3, led := Green, isrOut := [], mainOut := [] }

/-- The interrupt handler `buttonISR`. -/
def buttonISR (s : State) : State :=
  let s1 := { s with isrOut := s.isrOut ++ [Out.clearPending] }
  match s1.c.trySend s1.led with
  | some c1 =>
    let led1 := wrapInt (s1.led + 1)
    { s1 with c := c1, led := if led1 > Red then Green else led1 }
  | none =>
    { s1 with isrOut := s1.isrOut ++
        [Out.setPin Blue, Out.delayLoop 100000, Out.clearPin Blue] }

/-- The function `toggle`. -/
def toggle (led : Int) (s : State) : State :=
  { s with mainOut := s.mainOut ++
      [Out.setPin led, Out.delayMillisec 500, Out.clearPin led, Out.delayMillisec 500] }

/-- One iteration `toggle(<-c)` of the loop of `main`: the value received and
the state after it, or `none` while the receive is blocked. -/
def mainIter (s : State) : Option (Int × State) :=
  match s.c.recv with
  | none => none
  | some (v, c1) => some (v, toggle v { s with c := c1 })

/-- The two kinds of events of an execution: a call of `buttonISR` and a
receive by `main`. -/
inductive Ev where
  | isr
  | recv
  deriving DecidableEq, Repr

/-- One event.  A receive on the empty channel does not happen: `main` stays
blocked and the state is unchanged. -/
def step (s : State) : Ev → State
  | Ev.isr => buttonISR s
  | Ev.recv =>
    match mainIter s with
    | some (_, s1) => s1
    | none => s

/-- The state after a finite interleaving of events, from state `s`. -/
def run (evs : List Ev) (s : State) : State := evs.foldl step s

/-- An execution as seen from outside the channel: the program state, the
values of `led` for which `buttonISR` took the send case of its `select`, and
the values that the receive in `main` returned, both oldest first. -/
structure Exec where
  st : State
  accepted : List Int
  delivered : List Int
  deriving DecidableEq, Repr

/-- The execution before any event. -/
def Exec.init : Exec := { st := State.init, accepted := [], delivered := [] }

/-- One event of an execution.  A call of `buttonISR` adds `led` to `accepted`
when the send `c <- led` of its `select` is taken; a receive that completes
adds the value `mainIter` returns to `delivered`; a receive on the empty
channel does not happen. -/
def stepObs (o : Exec) : Ev → Exec
  | Ev.isr =>
    { st := buttonISR o.st,
      accepted :=
        match o.st.c.trySend o.st.led with
        | some _ => o.accepted ++ [o.st.led]
        | none => o.accepted,
      delivered := o.delivered }
  | Ev.recv =>
    match mainIter o.st with
    | some (v, s1) => { st := s1, accepted := o.accepted, delivered := o.delivered ++ [v] }
    | none => o

/-- The execution after a finite interleaving of events, from `o`. -/
def runObs (evs : List Ev) (o : Exec) : Exec := evs.foldl stepObs o

/-- Invariant of the executions from `Exec.init` after `n` calls of
`buttonISR`: every call either had its send taken or pulsed the Blue LED, and
the values seen from outside are the ones the channel took in and gave out. -/
structure ObsInv (o : Exec) (n : Nat) : Prop where
  calls : n = o.accepted.length + o.st.isrOut.count (Out.setPin Blue)
  acc_eq : o.accepted = o.st.c.sent
  del_eq : o.delivered = o.st.c.rcvd

/-- The operations `toggle` issues for the value `v`. -/
def toggleOps (v : Int) : List Out :=
  [Out.setPin v, Out.delayMillisec 500, Out.clearPin v, Out.delayMillisec 500]

/-- The colour of the `k`-th successful send: `Green + (k mod 3)`. -/
def colour (k : Nat) : Int := Green + ((k % 3 : Nat) : Int)

/-- A channel state of `c` holding three values, with `led` back at Green. -/
def State.full : State :=
  { c := { cap := 3, buf := [12, 13, 14], sent := [12, 13, 14], rcvd := [] },
    led := 12, isrOut := [], mainOut := [] }

/-- Invariant of the executions from `State.init`. -/
structure Inv (s : State) : Prop where
  cap_eq : s.c.cap = 3
  len_le : s.c.buf.length ≤ 3
  fifo : s.c.rcvd ++ s.c.buf = s.c.sent
  led_eq : s.led = colour s.c.sent.length
  sent_eq : s.c.sent = (List.range s.c.sent.length).map colour
  main_eq : s.mainOut = s.c.rcvd.flatMap toggleOps

end ChanISR

/-! ## nrf5/hal/rtc: register accessors -/

namespace RTC

/-- Modelled from the spec: the register type `mmio.U32` of package `mmio`,
which is not part of the sources at hand; the spec calls the register
accessors mechanical bitfield get/set.  A register is a 32-bit word. -/
structure U32 where
  val : Nat
  deriving DecidableEq, Repr

/-- Modelled from the spec: `mmio.U32.Bits(mask)`, the bits of the register
selected by `mask`. -/
def U32.Bits (r : U32) (mask : Nat) : Nat := r.val &&& mask

/-- Modelled from the spec: `mmio.U32.Store(v)`, the register holding the
32-bit word `v`. -/
def U32.Store (v : Nat) : U32 := { val := v % 4294967296 }

/-- The conversion `uint32(x)` of a Go `int`. -/
def uint32 (x : Int) : Nat := (x % 4294967296).toNat

/-- The struct `Periph`.  The embedded `te.Regs` is declared in another
package and is a parameter; the two anonymous reserved arrays hold no
state the accessors reach. -/
structure Periph (TeRegs : Type) where
  Regs : TeRegs
  counter : U32
  prescaler : U32
  cc : Fin 4 → U32

variable {TeRegs : Type}

/-- Method `COUNTER`: value of counter register. -/
def Periph.COUNTER (p : Periph TeRegs) : Nat := p.counter.Bits 0xffffff

/-- Method `SetCOUNTER`. -/
def Periph.SetCOUNTER (p : Periph TeRegs) (c : Nat) : Periph TeRegs :=
  { p with counter := U32.Store c }

/-- Method `PRESCALER`, as written: `p.counter.Bits(0xfff)`. -/
def Periph.PRESCALER (p : Periph TeRegs) : Nat := p.counter.Bits 0xfff

/-- Method `SetPRESCALER`. -/
def Periph.SetPRESCALER (p : Periph TeRegs) (pr : Int) : Periph TeRegs :=
  { p with prescaler := U32.Store (uint32 pr) }

/-- Method `CC`: `p.cc[n].Bits(0xffffff)`; `none` when the index `n` is outside
the array. -/
def Periph.CC (p : Periph TeRegs) (n : Int) : Option Nat :=
  if h : 0 ≤ n ∧ n < 4 then
    some ((p.cc ⟨n.toNat, by omega⟩).Bits 0xffffff)
  else
    none

/-- Method `SetCC`: `p.cc[n].Store(cc)`; `none` when the index `n` is outside
the array. -/
def Periph.SetCC (p : Periph TeRegs) (n : Int) (cc : Nat) : Option (Periph TeRegs) :=
  if h : 0 ≤ n ∧ n < 4 then
    some { p with cc := Function.update p.cc ⟨n.toNat, by omega⟩ (U32.Store cc) }
  else
    none

/-- A peripheral with all registers zero (the reset state). -/
def Periph.zero : Periph Unit :=
  { Regs := (), counter := { val := 0 }, prescaler := { val := 0 }, cc := fun _ => { val := 0 } }

end RTC

/-! ## circadc: the acquisition consumer loop -/

namespace CircADC

/-- The constant `trig` of `main`. -/
def trig : Nat := 128

/-- The closure `scale` of `main`: `wh.Y - 8 - int(y)*7/8`. -/
def scale (whY : Int) (y : Nat) : Int := whY - 8 - Int.tdiv ((y : Int) * 7) 8

/-- Drawing operations on the screen area `scr`. -/
inductive Draw where
  | setColor (c : Nat)                  -- scr.SetColor(c)
  | fillRect (x0 y0 x1 y1 : Int)        -- scr.FillRect(Rectangle{Pt(x0,y0), Pt(x1,y1)})
  deriving DecidableEq, Repr

/-- The call `scr.FillRect(image.Rect(x0, y0, x1, y1))`: `image.Rect` swaps
minimum and maximum coordinates where needed. -/
def fillImageRect (x0 y0 x1 y1 : Int) : Draw :=
  Draw.fillRect (min x0 x1) (min y0 y1) (max x0 x1) (max y0 y1)

/-- Result of an indexing or slicing expression: the value, or the offending
index when it is out of range. -/
inductive Res (α : Type) where
  | ok (v : α)
  | outOfRange (idx : Nat)
  deriving DecidableEq, Repr

/-- The index expression `buf[i]`: the byte, or `Res.outOfRange i` when `i` is
not below `len(buf)`. -/
def index (buf : List Nat) (i : Nat) : Res Nat :=
  match buf[i]? with
  | some b => Res.ok b
  | none => Res.outOfRange i

/-- The slice expression `buf[:n]` on the slice with the bytes `buf` and the
further bytes `spare` of its backing array up to its capacity: the first `n`
bytes of the backing array, or `Res.outOfRange` with the bound when it is
negative or above the capacity `len(buf) + len(spare)`. -/
def sliceTo (buf spare : List Nat) (n : Int) : Res (List Nat) :=
  if 0 ≤ n ∧ n.toNat ≤ buf.length + spare.length then Res.ok ((buf ++ spare).take n.toNat)
  else Res.outOfRange n.toNat

/-- The body of `for i, b := range buf[:wh.X*2]`, from index `i` over the rest
of the slice: the offset found (`-1` when the loop runs to its end), or the
index of an out-of-range read of `buf[i+1]`. -/
def searchLoop (buf : List Nat) : Nat → List Nat → Res Int
  | _, [] => Res.ok (-1)
  | i, b :: rest =>
    if b < trig then
      match index buf (i + 1) with
      | Res.outOfRange e => Res.outOfRange e
      | Res.ok b1 =>
        if b1 ≥ trig then Res.ok (i : Int) else searchLoop buf (i + 1) rest
    else searchLoop buf (i + 1) rest

/-- The rising-edge search of `main` (`offset := -1` and the `range` loop) on
the slice with the bytes `buf` and the spare capacity `spare`. -/
def search (whX : Int) (buf spare : List Nat) : Res Int :=
  match sliceTo buf spare (whX * 2) with
  | Res.outOfRange e => Res.outOfRange e
  | Res.ok s => searchLoop buf 0 s

/-- The loop `for x := 0; x < wh.X; x++` from column `x` with `k` columns left:
the drawing operations issued, and the index of an out-of-range read if one
ended the loop. -/
def plotLoop (whY : Int) (buf : List Nat) (offset : Nat) : Nat → Nat → List Draw × Option Nat
  | _, 0 => ([], none)
  | x, k + 1 =>
    let clear := [Draw.setColor 0, fillImageRect x 0 (x + 1) whY, Draw.setColor 0xffff]
    match index buf (offset + x) with
    | Res.outOfRange e => (clear, some e)
    | Res.ok b0 =>
      match index buf (offset + x + 1) with
      | Res.outOfRange e => (clear, some e)
      | Res.ok b1 =>
        let y0 := scale whY b0
        let y1 := scale whY b1
        let lo := if y0 > y1 then y1 else y0
        let hi := if y0 > y1 then y0 else y1
        let r := plotLoop whY buf offset (x + 1) k
        (clear ++ [Draw.fillRect x lo (x + 1) (hi + 1)] ++ r.1, r.2)

/-- The waveform stage of one iteration on the slot with the bytes `buf` and
the spare capacity `spare`: search, clamp of a negative offset to 0, plot. -/
def waveform (whX whY : Int) (buf spare : List Nat) : List Draw × Option Nat :=
  match search whX buf spare with
  | Res.outOfRange e => ([], some e)
  | Res.ok offset =>
    let offset := if offset < 0 then 0 else offset
    plotLoop whY buf offset.toNat 0 whX.toNat

/-- Operations that the loop of `main` issues on the driver `adcd`, the
console and the screen. -/
inductive Act (E : Type) where
  | recvHandle (bh : Int)          -- bh := <-adcd.HandleChan()
  | err                            -- adcd.Err()
  | println (i : Int) (e : E)      -- fmt.Println(i, err)
  | bytes (bh : Int)               -- adcd.Bytes(bh)
  | draw (d : Draw)
  deriving DecidableEq, Repr

/-- How one iteration of the consumer loop leaves: to the next iteration with
the incremented counter, or by the run-time panic of an out-of-range index,
which ends the loop. -/
inductive Ctl where
  | next (i : Int)
  | indexOutOfRange (idx : Nat)
  deriving DecidableEq, Repr

/-- How an iteration with counter `i` leaves after the waveform stage: by the
out-of-range read if there was one, else to the next iteration after `i++`. -/
def Ctl.after (i : Int) : Option Nat → Ctl
  | none => Ctl.next (wrapInt (i + 1))
  | some idx => Ctl.indexOutOfRange idx

/-- The operations of one iteration, in order, and how it leaves. -/
structure Iter (E : Type) where
  trace : List (Act E)
  ctl : Ctl

/-- The statement `if err := adcd.Err(); err != nil { fmt.Println(i, err) }`
after the call of `Err`: the print, for the result `e` (`none` for nil). -/
def report {E : Type} (i : Int) : Option E → List (Act E)
  | some er => [Act.println i er]
  | none => []

/-- One iteration of `for i := 1; ; i++` in `main`, given the handle `bh` the
channel delivers, the result `e` of `adcd.Err()` (`none` for nil) and the slice
that `adcd.Bytes(bh)` returns: its bytes `slot bh` and spare capacity
`spare bh`. -/
def iteration {E : Type} (whX whY : Int) (slot spare : Int → List Nat)
    (i : Int) (bh : Int) (e : Option E) : Iter E :=
  let head : List (Act E) := [Act.recvHandle bh, Act.err] ++ report i e
  if bh < 0 then
    { trace := head, ctl := Ctl.next (wrapInt (i + 1)) }
  else
    let w := waveform whX whY (slot bh) (spare bh)
    { trace := head ++ [Act.bytes bh] ++ w.1.map Act.draw, ctl := Ctl.after i w.2 }

/-- A slot of 640 bytes, all zero (the input held low). -/
def lowSlot : List Nat := List.replicate 640 0

/-- A slot of 640 bytes: 400 zero bytes, then 240 bytes of value 200 (one rising
edge, between the indices 399 and 400). -/
def edgeSlot : List Nat := List.replicate 400 0 ++ List.replicate 240 200

end CircADC

end Emgo



/-! # Theorems -/

namespace Emgo

namespace ChanISR

theorem buttonISR_full (s : State) (h : ¬ s.c.buf.length < s.c.cap) :
    buttonISR s = { s with isrOut := s.isrOut ++
      [Out.clearPending, Out.setPin Blue, Out.delayLoop 100000, Out.clearPin Blue] } := by
  simp [buttonISR, Chan.trySend, h]

theorem buttonISR_room (s : State) (h : s.c.buf.length < s.c.cap) :
    buttonISR s =
      { c := { s.c with buf := s.c.buf ++ [s.led], sent := s.c.sent ++ [s.led] },
        led := if wrapInt (s.led + 1) > Red then Green else wrapInt (s.led + 1),
        isrOut := s.isrOut ++ [Out.clearPending],
        mainOut := s.mainOut } := by
  simp [buttonISR, Chan.trySend, h]

theorem step_recv_cons (s : State) (v : Int) (rest : List Int) (h : s.c.buf = v :: rest) :
    step s Ev.recv =
      { s with c := { s.c with buf := rest, rcvd := s.c.rcvd ++ [v] },
               mainOut := s.mainOut ++ toggleOps v } := by
  simp [step, mainIter, Chan.recv, h, toggle, toggleOps]

theorem step_recv_nil (s : State) (h : s.c.buf = []) : step s Ev.recv = s := by
  simp [step, mainIter, Chan.recv, h]

theorem colour_succ (k : Nat) :
    (if wrapInt (colour k + 1) > Red then Green else wrapInt (colour k + 1)) = colour (k + 1) := by
  have h3 : k % 3 = 0 ∨ k % 3 = 1 ∨ k % 3 = 2 := by omega
  rcases h3 with h | h | h
  · have h1 : (k + 1) % 3 = 1 := by omega
    simp [colour, h, h1, wrapInt, Green, Red]
  · have h1 : (k + 1) % 3 = 2 := by omega
    simp [colour, h, h1, wrapInt, Green, Red]
  · have h1 : (k + 1) % 3 = 0 := by omega
    simp [colour, h, h1, wrapInt, Green, Red]

theorem inv_init : Inv State.init := by
  constructor <;> simp [State.init, Chan.make, colour]

theorem inv_step (s : State) (e : Ev) (hs : Inv s) : Inv (step s e) := by
  obtain ⟨hcap, hlen, hfifo, hled, hsent, hmain⟩ := hs
  cases e with
  | isr =>
    show Inv (buttonISR s)
    by_cases h : s.c.buf.length < s.c.cap
    · rw [buttonISR_room s h]
      refine ⟨hcap, ?_, ?_, ?_, ?_, hmain⟩
      · simp only [List.length_append, List.length_singleton]; omega
      · simp only [← List.append_assoc, hfifo]
      · simp only [List.length_append, List.length_singleton, hled]
        exact colour_succ _
      · simp only [List.length_append, List.length_singleton, List.range_succ,
          List.map_append, List.map_singleton, ← hsent, hled]
    · rw [buttonISR_full s h]
      exact ⟨hcap, hlen, hfifo, hled, hsent, hmain⟩
  | recv =>
    cases hb : s.c.buf with
    | nil =>
      rw [step_recv_nil s hb]
      exact ⟨hcap, hlen, hfifo, hled, hsent, hmain⟩
    | cons v rest =>
      rw [step_recv_cons s v rest hb]
      rw [hb] at hlen hfifo
      refine ⟨hcap, ?_, ?_, hled, hsent, ?_⟩
      · simp only [List.length_cons] at hlen ⊢; omega
      · simpa using hfifo
      · simp [hmain, List.flatMap_append]

theorem inv_run (evs : List Ev) : ∀ s : State, Inv s → Inv (run evs s) := by
  induction evs with
  | nil => intro s hs; exact hs
  | cons e rest ih =>
    intro s hs
    exact ih (step s e) (inv_step s e hs)

/-- C1. Overflow of the event queue is refused: in every state in which `c`
holds 3 values (its capacity), `buttonISR` leaves the channel (contents, order
and history of sends) and `led` unchanged and pulses the Blue LED; the receive
by `main` that follows takes the oldest value, and the next `buttonISR` then
enqueues the value of `led` behind the two values that remain. -/
theorem c1_overflow_refused (s : State) (hcap : s.c.cap = 3) (hfull : s.c.buf.length = 3) :
    (buttonISR s).c = s.c ∧ (buttonISR s).led = s.led ∧
    (buttonISR s).isrOut = s.isrOut ++
      [Out.clearPending, Out.setPin Blue, Out.delayLoop 100000, Out.clearPin Blue] ∧
    ∃ v rest, s.c.buf = v :: rest ∧
      mainIter (buttonISR s) = some (v, step (buttonISR s) Ev.recv) ∧
      (step (buttonISR s) Ev.recv).c.buf = rest ∧
      (buttonISR (step (buttonISR s) Ev.recv)).c.buf = rest ++ [s.led] ∧
      (buttonISR (step (buttonISR s) Ev.recv)).c.sent = s.c.sent ++ [s.led] := by
  have hnot : ¬ s.c.buf.length < s.c.cap := by omega
  have hI := buttonISR_full s hnot
  have hc : (buttonISR s).c = s.c := by rw [hI]
  have hl : (buttonISR s).led = s.led := by rw [hI]
  refine ⟨hc, hl, by rw [hI], ?_⟩
  cases hb : s.c.buf with
  | nil => rw [hb] at hfull; simp at hfull
  | cons v rest =>
    refine ⟨v, rest, rfl, ?_⟩
    have hlen : rest.length = 2 := by rw [hb] at hfull; simpa using hfull
    have hb1 : (buttonISR s).c.buf = v :: rest := by rw [hc]; exact hb
    have hstep := step_recv_cons (buttonISR s) v rest hb1
    have hroom : (step (buttonISR s) Ev.recv).c.buf.length <
        (step (buttonISR s) Ev.recv).c.cap := by
      rw [hstep]; simp [hlen, hc, hcap]
    refine ⟨?_, by rw [hstep], ?_, ?_⟩
    · rw [hstep]
      simp [mainIter, Chan.recv, hb1, toggle, toggleOps]
    · rw [buttonISR_room _ hroom, hstep]
      simp [hl]
    · rw [buttonISR_room _ hroom, hstep]
      simp [hl, hc]

/-- Witness of C1 at the full channel Green, Orange, Red. -/
theorem c1_overflow_refused_witness :
    State.full.c.cap = 3 ∧ State.full.c.buf.length = 3 ∧
    (buttonISR State.full).c = State.full.c ∧
    (buttonISR (step (buttonISR State.full) Ev.recv)).c.buf = [13, 14, 12] :=
  ⟨rfl, rfl, (c1_overflow_refused State.full rfl rfl).1, by decide⟩

theorem runObs_st (evs : List Ev) : ∀ o : Exec, (runObs evs o).st = run evs o.st := by
  induction evs with
  | nil => intro o; rfl
  | cons e rest ih =>
    intro o
    have hst : (stepObs o e).st = step o.st e := by
      cases e with
      | isr => rfl
      | recv =>
        cases hm : mainIter o.st with
        | none => simp [stepObs, step, hm]
        | some p => simp [stepObs, step, hm]
    show (runObs rest (stepObs o e)).st = run rest (step o.st e)
    rw [ih (stepObs o e), hst]

theorem obsInv_step (o : Exec) (n : Nat) (e : Ev) (h : ObsInv o n) :
    ObsInv (stepObs o e) (n + [e].count Ev.isr) := by
  obtain ⟨hcalls, hacc, hdel⟩ := h
  cases e with
  | isr =>
    by_cases hroom : o.st.c.buf.length < o.st.c.cap
    · refine ⟨?_, ?_, ?_⟩
      · simp [stepObs, Chan.trySend, hroom, buttonISR_room o.st hroom, hcalls,
          List.count_append, List.count_cons]
        omega
      · simp [stepObs, Chan.trySend, hroom, buttonISR_room o.st hroom, hacc]
      · simp [stepObs, buttonISR_room o.st hroom, hdel]
    · refine ⟨?_, ?_, ?_⟩
      · simp [stepObs, Chan.trySend, hroom, buttonISR_full o.st hroom, hcalls,
          List.count_append, List.count_cons]
        omega
      · simp [stepObs, Chan.trySend, hroom, buttonISR_full o.st hroom, hacc]
      · simp [stepObs, buttonISR_full o.st hroom, hdel]
  | recv =>
    cases hb : o.st.c.buf with
    | nil =>
      have hm : mainIter o.st = none := by simp [mainIter, Chan.recv, hb]
      simp only [stepObs, hm]
      exact ⟨by simpa using hcalls, hacc, hdel⟩
    | cons v rest =>
      have hm : mainIter o.st = some (v, toggle v { o.st with c :=
          { o.st.c with buf := rest, rcvd := o.st.c.rcvd ++ [v] } }) := by
        simp [mainIter, Chan.recv, hb]
      simp only [stepObs, hm]
      exact ⟨by simpa [toggle] using hcalls, by simpa [toggle] using hacc,
        by simp [toggle, hdel]⟩

theorem obsInv_run (evs : List Ev) :
    ∀ (o : Exec) (n : Nat), ObsInv o n → ObsInv (runObs evs o) (n + evs.count Ev.isr) := by
  induction evs with
  | nil => intro o n h; simpa [runObs] using h
  | cons e rest ih =>
    intro o n h
    have h1 := ih (stepObs o e) _ (obsInv_step o n e h)
    have hc : n + [e].count Ev.isr + rest.count Ev.isr = n + (e :: rest).count Ev.isr := by
      simp [List.count_cons]
      omega
    rw [hc] at h1
    exact h1

theorem obsInv_init : ObsInv Exec.init 0 := by
  constructor <;> simp [Exec.init, State.init, Chan.make]

/-- C2. FIFO delivery: in the execution of every finite interleaving of
`buttonISR` calls and receives by `main` from the empty channel, the values
the receive returned are a leading segment of the values for which `buttonISR`
took the send case, in the same order; the accepted values not yet delivered
are exactly the content of the channel, in order, so none is duplicated or
lost; `main` has toggled exactly the delivered values; every call of
`buttonISR` either had its send accepted or pulsed the Blue LED; the channel
took in exactly the accepted values and gave out exactly the delivered ones;
and the next receive returns the oldest value in the channel, being blocked
only when the channel is empty. -/
theorem c2_fifo_delivery (evs : List Ev) :
    (runObs evs Exec.init).st = run evs State.init ∧
    (runObs evs Exec.init).delivered <+: (runObs evs Exec.init).accepted ∧
    (runObs evs Exec.init).delivered ++ (run evs State.init).c.buf =
      (runObs evs Exec.init).accepted ∧
    (run evs State.init).mainOut = (runObs evs Exec.init).delivered.flatMap toggleOps ∧
    evs.count Ev.isr = (runObs evs Exec.init).accepted.length +
      (run evs State.init).isrOut.count (Out.setPin Blue) ∧
    (runObs evs Exec.init).accepted = (run evs State.init).c.sent ∧
    (runObs evs Exec.init).delivered = (run evs State.init).c.rcvd ∧
    (mainIter (run evs State.init)).map Prod.fst = (run evs State.init).c.buf.head? := by
  have h := inv_run evs State.init inv_init
  have ho := obsInv_run evs Exec.init 0 obsInv_init
  have hst : (runObs evs Exec.init).st = run evs State.init := runObs_st evs Exec.init
  obtain ⟨hcalls, hacc, hdel⟩ := ho
  rw [hst] at hcalls hacc hdel
  refine ⟨hst, ⟨(run evs State.init).c.buf, ?_⟩, ?_, ?_, ?_, hacc, hdel, ?_⟩
  · rw [hacc, hdel]; exact h.fifo
  · rw [hacc, hdel]; exact h.fifo
  · rw [hdel]; exact h.main_eq
  · simpa using hcalls
  · cases hb : (run evs State.init).c.buf with
    | nil => simp [mainIter, Chan.recv, hb]
    | cons v rest => simp [mainIter, Chan.recv, hb]

/-- C3. Bounded occupancy: in every state reachable from the initial empty
channel by `buttonISR` calls and receives, `c` holds at most 3 values and its
capacity is still 3. -/
theorem c3_bounded_occupancy (evs : List Ev) :
    0 ≤ (run evs State.init).c.buf.length ∧ (run evs State.init).c.buf.length ≤ 3 ∧
    (run evs State.init).c.cap = 3 := by
  have h := inv_run evs State.init inv_init
  exact ⟨Nat.zero_le _, h.len_le, h.cap_eq⟩

end ChanISR

end Emgo

namespace Emgo

namespace RTC

/-- C4, evaluated on the code. After `SetPRESCALER(5)` on the peripheral with
all registers zero the prescaler register holds 5, yet `PRESCALER()` returns 0;
after `SetPRESCALER(pr)` on any peripheral, `PRESCALER()` returns the low 12
bits of the counter register, whatever `pr` is. -/
theorem c4_prescaler_reads_counter :
    (Periph.zero.SetPRESCALER 5).prescaler.Bits 0xfff = 5 ∧
    (Periph.zero.SetPRESCALER 5).PRESCALER = 0 ∧
    ∀ (p : Periph Unit) (pr : Int), (p.SetPRESCALER pr).PRESCALER = p.counter.val &&& 0xfff := by
  refine ⟨by decide, by decide, ?_⟩
  intro p pr
  rfl

/-- C5. `SetCC` sets only the `n`-th compare register: for `n` in 0..3 and a
32-bit `cc`, the call succeeds, `CC(n)` then returns `cc & 0xffffff`, and
`CC(m)` for every other `m` in 0..3, `COUNTER()`, the counter and prescaler
registers, `PRESCALER()` and the task/event registers are as before. -/
theorem c5_setcc_frame {TeRegs : Type} (p : Periph TeRegs) (n : Int) (cc : Nat)
    (h0 : 0 ≤ n) (h3 : n ≤ 3) (hcc : cc < 4294967296) :
    ∃ q, p.SetCC n cc = some q ∧
      q.CC n = some (cc &&& 0xffffff) ∧
      (∀ m : Int, 0 ≤ m → m ≤ 3 → m ≠ n → q.CC m = p.CC m) ∧
      q.COUNTER = p.COUNTER ∧ q.counter = p.counter ∧
      q.prescaler = p.prescaler ∧ q.PRESCALER = p.PRESCALER ∧ q.Regs = p.Regs := by
  have hn : 0 ≤ n ∧ n < 4 := ⟨h0, by omega⟩
  refine ⟨_, dif_pos hn, ?_, ?_, rfl, rfl, rfl, rfl, rfl⟩
  · simp [Periph.CC, hn, U32.Store, U32.Bits, Nat.mod_eq_of_lt hcc]
  · intro m hm0 hm3 hmn
    have hm : 0 ≤ m ∧ m < 4 := ⟨hm0, by omega⟩
    have hne : (⟨m.toNat, by omega⟩ : Fin 4) ≠ ⟨n.toNat, by omega⟩ := by
      intro heq
      have := congrArg Fin.val heq
      simp only at this
      omega
    simp [Periph.CC, hm, Function.update_noteq hne]

/-- Witness of C5: `SetCC(2, 0x12345678)` on the peripheral with all registers
zero. -/
theorem c5_setcc_frame_witness :
    ∃ q, Periph.zero.SetCC 2 0x12345678 = some q ∧
      q.CC 2 = some (0x12345678 &&& 0xffffff) ∧
      (∀ m : Int, 0 ≤ m → m ≤ 3 → m ≠ 2 → q.CC m = Periph.zero.CC m) ∧
      q.COUNTER = Periph.zero.COUNTER ∧ q.counter = Periph.zero.counter ∧
      q.prescaler = Periph.zero.prescaler ∧ q.PRESCALER = Periph.zero.PRESCALER ∧
      q.Regs = Periph.zero.Regs :=
  c5_setcc_frame Periph.zero 2 0x12345678 (by decide) (by decide) (by decide)

end RTC

end Emgo

namespace Emgo

namespace CircADC

theorem index_lt (buf : List Nat) (i : Nat) (h : i < buf.length) :
    index buf i = Res.ok buf[i] := by
  simp [index, List.getElem?_eq_getElem h]

theorem index_ge (buf : List Nat) (i : Nat) (h : buf.length ≤ i) :
    index buf i = Res.outOfRange i := by
  simp [index, List.getElem?_eq_none h]

/-- On a buffer whose bytes are all below `trig`, the search loop over a
non-empty rest of the buffer that ends at its last byte reads `buf[len(buf)]`. -/
theorem searchLoop_low (buf : List Nat) (hlow : ∀ b ∈ buf, b < trig) :
    ∀ (s : List Nat) (i : Nat), (∀ b ∈ s, b < trig) → s ≠ [] →
      i + s.length = buf.length → searchLoop buf i s = Res.outOfRange buf.length := by
  intro s
  induction s with
  | nil => intro i _ h; exact absurd rfl h
  | cons b rest ih =>
    intro i hs _ hlen
    have hb : b < trig := hs b (List.mem_cons_self _ _)
    simp only [List.length_cons] at hlen
    by_cases hr : rest = []
    · subst hr
      simp only [List.length_nil] at hlen
      have hi : buf.length ≤ i + 1 := by omega
      have hidx : index buf (i + 1) = Res.outOfRange buf.length := by
        have he : i + 1 = buf.length := by omega
        rw [index_ge buf (i + 1) hi, he]
      simp only [searchLoop, hb, if_true, hidx]
    · have hpos : 0 < rest.length := List.length_pos.mpr hr
      have hi : i + 1 < buf.length := by omega
      have hv : ¬ buf[i + 1] ≥ trig := by
        have := hlow buf[i + 1] (List.getElem_mem _)
        omega
      simp only [searchLoop, hb, if_true, index_lt buf (i + 1) hi, hv, if_false]
      exact ih (i + 1) (fun x hx => hs x (List.mem_cons_of_mem _ hx)) hr (by omega)

theorem sliceTo_whole (buf spare : List Nat) (n : Int) (h0 : 0 ≤ n)
    (hn : n.toNat = buf.length) : sliceTo buf spare n = Res.ok buf := by
  unfold sliceTo
  rw [if_pos ⟨h0, by omega⟩, hn, List.take_left]

/-- For every width `W > 0`, on a slot of exactly `2*W` bytes that are all
below `trig`, whatever its spare capacity, the rising-edge search reads
`buf[2*W]`. -/
theorem search_low (W : Nat) (hW : 0 < W) (buf spare : List Nat) (hlen : buf.length = 2 * W)
    (hlow : ∀ b ∈ buf, b < trig) : search (W : Int) buf spare = Res.outOfRange (2 * W) := by
  have hne : buf ≠ [] := by
    intro h
    rw [h] at hlen
    simp at hlen
    omega
  have hs : sliceTo buf spare ((W : Int) * 2) = Res.ok buf :=
    sliceTo_whole buf spare _ (by omega) (by omega)
  simp only [search, hs]
  rw [searchLoop_low buf hlow buf 0 hlow hne (by omega), hlen]

/-- The search loop finds the edge at `a` when the bytes of the slice up to `a`
are below `trig`, the reads of `buf` at `i+1 .. a` are below `trig` and the
read at `a+1` is not. -/
theorem searchLoop_edge (buf rest : List Nat) (a : Nat)
    (hmid : ∀ j, j < a → ∃ v, index buf (j + 1) = Res.ok v ∧ v < trig)
    (hedge : ∃ v, index buf (a + 1) = Res.ok v ∧ trig ≤ v) :
    ∀ (l : List Nat) (i : Nat), (∀ b ∈ l, b < trig) → l ≠ [] →
      i + l.length = a + 1 → searchLoop buf i (l ++ rest) = Res.ok (a : Int) := by
  intro l
  induction l with
  | nil => intro i _ h; exact absurd rfl h
  | cons b l1 ih =>
    intro i hl _ hlen
    have hb : b < trig := hl b (List.mem_cons_self _ _)
    simp only [List.length_cons] at hlen
    by_cases hr : l1 = []
    · subst hr
      simp only [List.length_nil] at hlen
      have hia : i = a := by omega
      subst hia
      obtain ⟨v, hv, hge⟩ := hedge
      simp [searchLoop, hb, hv, hge]
    · have hpos : 0 < l1.length := List.length_pos.mpr hr
      obtain ⟨v, hv, hlt⟩ := hmid i (by omega)
      have hnge : ¬ v ≥ trig := by omega
      simp only [List.cons_append, searchLoop, hb, if_true, hv, hnge, if_false]
      exact ih (i + 1) (fun x hx => hl x (List.mem_cons_of_mem _ hx)) hr (by omega)

/-- The plot loop reads `buf[len(buf)]` when it starts inside the buffer and
its last column lies at or beyond the last byte. -/
theorem plotLoop_fault (whY : Int) (buf : List Nat) (offset : Nat) :
    ∀ (k x : Nat), offset + x < buf.length → buf.length ≤ offset + x + k →
      (plotLoop whY buf offset x k).2 = some buf.length := by
  intro k
  induction k with
  | zero => intro x h1 h2; omega
  | succ k ih =>
    intro x h1 h2
    by_cases hlast : offset + x + 1 < buf.length
    · simp only [plotLoop, index_lt buf (offset + x) h1, index_lt buf (offset + x + 1) hlast]
      exact ih (x + 1) (by omega) (by omega)
    · have hge : buf.length ≤ offset + x + 1 := by omega
      have hidx : index buf (offset + x + 1) = Res.outOfRange buf.length := by
        have he : offset + x + 1 = buf.length := by omega
        rw [index_ge buf (offset + x + 1) hge, he]
      simp only [plotLoop, index_lt buf (offset + x) h1, hidx]

theorem lowSlot_length : lowSlot.length = 640 := by
  unfold lowSlot
  exact List.length_replicate 640 0

theorem edgeSlot_length : edgeSlot.length = 640 := by
  unfold edgeSlot
  rw [List.length_append, List.length_replicate, List.length_replicate]

theorem edgeSlot_low (j : Nat) (h : j < 400) : index edgeSlot j = Res.ok 0 := by
  have h1 : j < (List.replicate 400 0 : List Nat).length := by
    rw [List.length_replicate]; exact h
  unfold index edgeSlot
  rw [List.getElem?_append_left h1, List.getElem?_replicate, if_pos h]

theorem edgeSlot_high : index edgeSlot 400 = Res.ok 200 := by
  have h1 : (List.replicate 400 0 : List Nat).length ≤ 400 := by
    rw [List.length_replicate]
  unfold index edgeSlot
  rw [List.getElem?_append_right h1, List.length_replicate, List.getElem?_replicate,
    if_pos (by decide)]

theorem sliceTo_edgeSlot (spare : List Nat) :
    sliceTo edgeSlot spare (320 * 2) = Res.ok edgeSlot :=
  sliceTo_whole edgeSlot spare _ (by decide) (by rw [edgeSlot_length]; decide)

theorem replicate_400_ne_nil : (List.replicate 400 0 : List Nat) ≠ [] := by
  intro h
  have hl := congrArg List.length h
  rw [List.length_replicate] at hl
  exact absurd hl (by decide)

theorem searchLoop_edgeSlot :
    searchLoop edgeSlot 0 (List.replicate 400 0 ++ List.replicate 240 200) =
      Res.ok ((399 : Nat) : Int) :=
  searchLoop_edge edgeSlot (List.replicate 240 200) 399
    (fun j hj => ⟨0, edgeSlot_low (j + 1) (by omega), by decide⟩)
    ⟨200, edgeSlot_high, by decide⟩
    (List.replicate 400 0) 0
    (fun b hb => by rw [List.eq_of_mem_replicate hb]; decide)
    replicate_400_ne_nil (by rw [List.length_replicate])

theorem search_edgeSlot (spare : List Nat) : search 320 edgeSlot spare = Res.ok 399 := by
  simp only [search, sliceTo_edgeSlot]
  exact searchLoop_edgeSlot

theorem lowSlot_low : ∀ b ∈ lowSlot, b < trig := by
  intro b hb
  rw [List.eq_of_mem_replicate hb]
  decide

theorem search_lowSlot (spare : List Nat) :
    search 320 lowSlot spare = Res.outOfRange 640 := by
  have h := search_low 320 (by decide) lowSlot spare lowSlot_length lowSlot_low
  rw [Nat.cast_ofNat] at h
  exact h

theorem waveform_of_search_fault (whX whY : Int) (buf spare : List Nat) (e : Nat)
    (h : search whX buf spare = Res.outOfRange e) :
    waveform whX whY buf spare = ([], some e) := by
  unfold waveform
  rw [h]

theorem waveform_of_search_ok (whX whY : Int) (buf spare : List Nat) (off : Int)
    (h : search whX buf spare = Res.ok off) :
    waveform whX whY buf spare =
      plotLoop whY buf (Int.toNat (if off < 0 then 0 else off)) 0 whX.toNat := by
  unfold waveform
  rw [h]

theorem waveform_lowSlot (spare : List Nat) :
    waveform 320 240 lowSlot spare = ([], some 640) :=
  waveform_of_search_fault 320 240 lowSlot spare 640 (search_lowSlot spare)

theorem waveform_edgeSlot (spare : List Nat) :
    waveform 320 240 edgeSlot spare = plotLoop 240 edgeSlot 399 0 320 := by
  have hoff : Int.toNat (if (399 : Int) < 0 then (0 : Int) else 399) = 399 := by decide
  have hw : Int.toNat 320 = 320 := by decide
  rw [waveform_of_search_ok 320 240 edgeSlot spare 399 (search_edgeSlot spare), hoff, hw]

theorem plotLoop_edgeSlot : (plotLoop 240 edgeSlot 399 0 320).2 = some 640 := by
  have h := plotLoop_fault 240 edgeSlot 399 320 0
    (by rw [edgeSlot_length]; decide) (by rw [edgeSlot_length]; decide)
  rw [edgeSlot_length] at h
  exact h

/-- An iteration on a handle that is not negative, given the result of the
waveform stage on its slot. -/
theorem iteration_of_waveform {E : Type} (whX whY : Int) (slot spare : Int → List Nat)
    (i bh : Int) (e : Option E) (ds : List Draw) (f : Option Nat) (hb : ¬ bh < 0)
    (hw : waveform whX whY (slot bh) (spare bh) = (ds, f)) :
    iteration whX whY slot spare i bh e =
      { trace := [Act.recvHandle bh, Act.err] ++ report i e ++ [Act.bytes bh] ++ ds.map Act.draw,
        ctl := Ctl.after i f } := by
  unfold iteration
  simp only [hb, if_false, hw]

/-- C7, evaluated on the code with `wh = (320, 240)` at the handle 0 whose slot
holds 640 zero bytes, whatever its spare capacity and the counter `i`. When
`adcd.Err()` returns nil the iteration receives the handle, calls `Err` once
and calls `Bytes(0)`; when it returns the error `er` the print of `i` and `er`
comes between the two. In both cases nothing is drawn and the iteration
leaves by the out-of-range read `buf[640]`, which ends the loop. -/
theorem c7_iteration_ends_on_low_slot {E : Type} (spare : Int → List Nat) (i : Int) (er : E) :
    iteration 320 240 (fun _ => lowSlot) spare i 0 (none : Option E) =
      { trace := [Act.recvHandle 0, Act.err, Act.bytes 0],
        ctl := Ctl.indexOutOfRange 640 } ∧
    iteration 320 240 (fun _ => lowSlot) spare i 0 (some er) =
      { trace := [Act.recvHandle 0, Act.err, Act.println i er, Act.bytes 0],
        ctl := Ctl.indexOutOfRange 640 } := by
  constructor
  · rw [iteration_of_waveform 320 240 (fun _ => lowSlot) spare i 0 none [] (some 640)
      (by decide) (waveform_lowSlot (spare 0))]
    simp only [List.map_nil, List.append_nil, Ctl.after, report, List.cons_append,
      List.nil_append]
  · rw [iteration_of_waveform 320 240 (fun _ => lowSlot) spare i 0 (some er) [] (some 640)
      (by decide) (waveform_lowSlot (spare 0))]
    simp only [List.map_nil, List.append_nil, Ctl.after, report, List.cons_append,
      List.nil_append]

/-- C8, evaluated on the code with `wh.X = 320` and slots of 640 bytes, whatever
their spare capacity. On the slot of 640 zero bytes the rising-edge search
reads `buf[640]`, which ends the waveform stage before anything is drawn; on
the slot whose rising edge is at index 399 the search returns 399 and the plot
then reads `buf[640]`. -/
theorem c8_waveform_reads_out_of_range (spare : List Nat) :
    lowSlot.length = 640 ∧
    search 320 lowSlot spare = Res.outOfRange 640 ∧
    waveform 320 240 lowSlot spare = ([], some 640) ∧
    edgeSlot.length = 640 ∧
    search 320 edgeSlot spare = Res.ok 399 ∧
    (waveform 320 240 edgeSlot spare).2 = some 640 := by
  refine ⟨lowSlot_length, search_lowSlot spare, waveform_lowSlot spare, edgeSlot_length,
    search_edgeSlot spare, ?_⟩
  rw [waveform_edgeSlot]
  exact plotLoop_edgeSlot

end CircADC

end Emgo
